import Mathlib

/-!
Verification of the timechange feature-extraction pipeline
(`web/timechange/transform.py`) and of the filter-list handling in the
network builder (`web/timechange/conv_model.py`).

Numeric arrays are modelled as lists of lists over an ordered field: `ℚ`
models the exact contents of the float arrays flowing through the
pipeline, and the Fourier and spectrogram steps produce values in `ℝ`.
Arrays are row-major, so an `ndarray.reshape` is a flatten followed by
slicing into rows, and `np.pad` on the column axis appends zeros to every
row.
-/

set_option linter.unusedSectionVars false

namespace TimeChange

/-- A 2D numpy array: rows are channels, columns are time steps. -/
abbrev Batch (α : Type) := List (List α)

variable {α : Type} [LinearOrderedField α] [DecidableEq α]

/-- Model of `np.max` along a row (rows are nonempty in the pipeline;
the `headD 0` seed only matters for an empty row). -/
def npMax (r : List α) : α := r.foldl max (r.headD 0)

/-- Model of `np.min` along a row. -/
def npMin (r : List α) : α := r.foldl min (r.headD 0)

/-- Shared row-normalisation policy (transform.py lines 168-174 and
193-198): compute the row maximum, replace a zero maximum by 1, and
divide the row by the possibly substituted maximum. -/
def normRow (r : List α) : List α :=
  r.map (fun x => x / (if npMax r = 0 then 1 else npMax r))

/-- Row normalisation applied to every row of a 2D array. -/
def normalizeRows (b : Batch α) : Batch α := b.map normRow

/-- Model of the in-place shift at transform.py line 191:
`time_series -= np.min(time_series, axis=1).reshape(...)`, applied to one
row. -/
def shiftRow (r : List α) : List α := r.map (fun x => x - npMin r)

/-- Model of `np.stack((a, a, a), axis=2)` and `np.stack([a] * 3, axis=2)`
(transform.py lines 181, 201 and 213): replicate a 2D array into three
identical channel planes. -/
def stack3 (b : Batch α) : List (List (List α)) :=
  b.map (fun r => r.map (fun x => [x, x, x]))

/-- The numpy `shape[1]` of a rectangular 2D array: the length of its
first row. -/
def width (ts : Batch α) : ℕ := (ts.headD []).length

/-- Pad amount computed at transform.py line 151:
`pad_length = chunk_size - (time_series.shape[1] % chunk_size)`. Note
that the code does NOT reduce this modulo `chunk_size`, so it equals a
full `chunk_size` when the width is already a multiple of
`chunk_size`. -/
def pad_length (chunk_size T : ℕ) : ℕ := chunk_size - T % chunk_size

/-- Chunk-alignment padding at transform.py line 152:
`np.pad(time_series, ((0, 0), (0, pad_length)), constant)` appends
`pad_length` zero columns to every row. -/
def padToChunk (chunk_size : ℕ) (ts : Batch α) : Batch α :=
  ts.map (fun r => r ++ List.replicate (pad_length chunk_size (width ts)) (0 : α))

/-- Row-major `ndarray.reshape (rows, cols)` of a flattened array: row
`i` is the slice of length `cols` starting at offset `i * cols`. -/
def reshapeRows (rows cols : ℕ) (l : List α) : List (List α) :=
  (List.range rows).map (fun i => (l.drop (i * cols)).take cols)

/-- One complex coefficient of the length-`F` discrete Fourier transform
of a real chunk, as computed by `np.fft.rfft(chunk, F)`: the chunk is
zero-padded or truncated to length `F` (indexing with `getD j 0` covers
both), and coefficient `k` is the sum of `x_j * exp(-2 pi i k j / F)`. -/
noncomputable def dftCoeff (F : ℕ) (x : List ℚ) (k : ℕ) : ℂ :=
  ∑ j ∈ Finset.range F,
    ((x.getD j 0 : ℚ) : ℂ) *
      Complex.exp (-2 * (Real.pi : ℂ) * Complex.I * (k : ℂ) * (j : ℂ) / (F : ℂ))

/-- Magnitudes of the real-input FFT of one chunk (transform.py line
160): `np.abs(np.fft.rfft(chunk, fft_size))` produces the magnitudes of
bins `0 .. fft_size / 2`, that is `fft_size / 2 + 1` values. -/
noncomputable def rfftMag (F : ℕ) (x : List ℚ) : List ℝ :=
  (List.range (F / 2 + 1)).map (fun k => Complex.abs (dftCoeff F x k))

/-- The frequency transform `simple_fourier` (transform.py lines
138-181), stage by stage: record the number of rows, pad the width to a
chunk multiple, reshape into rows of `chunk_size`
(`reshape(product(shape) / chunk_size, chunk_size)`), take rfft
magnitudes of every chunk, reshape to one row per input channel
(`reshape(num_time_series, product(shape) // num_time_series)`),
normalise each row by its maximum, reshape back to the recorded chunked
shape, and stack three identical planes. -/
noncomputable def simple_fourier (time_series : Batch ℚ) (chunk_size fft_size : ℕ) :
    List (List (List ℝ)) :=
  let num_time_series := time_series.length
  let padded := padToChunk chunk_size time_series
  let chunked := reshapeRows (padded.flatten.length / chunk_size) chunk_size padded.flatten
  let mags : Batch ℝ := chunked.map (rfftMag fft_size)
  let byRow := reshapeRows num_time_series (mags.flatten.length / num_time_series) mags.flatten
  let normed := normalizeRows byRow
  stack3 (reshapeRows mags.length (fft_size / 2 + 1) normed.flatten)

/-- The identity transform `nothing` (transform.py lines 184-201),
together with the final contents of the caller's array: line 191
subtracts the row minima IN PLACE (`time_series -= ...`), so after the
call the argument holds the shifted rows; the division and the stack
allocate fresh arrays. The first component is the returned value, the
second the post-call contents of the argument. -/
def nothingRun (time_series : Batch ℚ) : List (List (List ℚ)) × Batch ℚ :=
  (stack3 (normalizeRows (time_series.map shiftRow)), time_series.map shiftRow)

/-- The value returned by the identity transform `nothing`. -/
def nothing (time_series : Batch ℚ) : List (List (List ℚ)) :=
  (nothingRun time_series).1

/-- The spectrogram transform (transform.py lines 204-213). The
spectrogram itself, `scipy.signal.spectrogram`, is an external library
routine abstracted as the parameter `sxxOf`, which gives the 2D
magnitude array `Sxx` of the flattened series; the transform stacks that
array into three identical planes and does not mutate its argument. -/
def spectrogram (sxxOf : List ℚ → List (List ℝ)) (time_series : Batch ℚ) :
    List (List (List ℝ)) :=
  stack3 (sxxOf time_series.flatten)

/-- Embedding of the rational-valued identity-transform output into the
real-valued output type shared by all three transforms. -/
def qToR3 (out : List (List (List ℚ))) : List (List (List ℝ)) :=
  out.map (fun row => row.map (fun p => p.map (fun x => (x : ℝ))))

/-- The dispatcher `extract` (transform.py lines 115-130), paired with
the final contents of the caller's array: only the `nothing` branch
mutates its argument (see `nothingRun`). An unrecognised method name
raises `Exception("Invalid feature extraction method")`, modelled as an
`Except.error` carrying that message. -/
noncomputable def extractRun (sxxOf : List ℚ → List (List ℝ)) (time_series : Batch ℚ)
    (method : String) (chunk_size fft_size : ℕ) :
    Except String (List (List (List ℝ))) × Batch ℚ :=
  if method = "fft" then
    (Except.ok (simple_fourier time_series chunk_size fft_size), time_series)
  else if method = "spectrogram" then
    (Except.ok (spectrogram sxxOf time_series), time_series)
  else if method = "nothing" then
    (Except.ok (qToR3 (nothingRun time_series).1), (nothingRun time_series).2)
  else
    (Except.error "Invalid feature extraction method", time_series)

/-- The value returned (or the error raised) by `extract`. -/
noncomputable def extract (sxxOf : List ℚ → List (List ℝ)) (time_series : Batch ℚ)
    (method : String) (chunk_size fft_size : ℕ) :
    Except String (List (List (List ℝ))) :=
  (extractRun sxxOf time_series method chunk_size fft_size).1

/-- Truncation toward zero of a rational: the behaviour of the C
float-to-integer conversion performed by `ndarray.astype`. -/
def truncQ (v : ℚ) : ℤ := Int.tdiv v.num (v.den : ℤ)

/-- Pixel conversion at transform.py line 106:
`(data * 255).astype(np.uint8)` multiplies by 255, truncates toward
zero, and wraps into the 8-bit range. -/
def npUint8 (v : ℚ) : ℤ := truncQ (v * 255) % 256

/-- Filter-list extension in `conv_model` (conv_model.py lines 36-41).
When the parsed list is shorter than `num_blocks`, the code evaluates
`num_filters.extend(num_filters[-1] * (num_blocks - len(num_filters)))`;
since `num_filters[-1] * k` is an integer and `list.extend` requires an
iterable, Python raises `TypeError` (int object is not iterable),
modelled as an `Except.error`. Otherwise the branch is not taken and the
list is left unchanged. -/
def extendFilters (num_filters : List ℤ) (num_blocks : ℕ) : Except String (List ℤ) :=
  if num_filters.length < num_blocks then
    Except.error "TypeError: int object is not iterable"
  else
    Except.ok num_filters

/-! ### Helper lemmas about folded maxima and minima -/

theorem le_foldl_max (r : List α) (init : α) : init ≤ r.foldl max init := by
  induction r generalizing init with
  | nil => exact le_refl init
  | cons a tl ih => exact le_trans (le_max_left init a) (ih (max init a))

theorem mem_le_foldl_max {x : α} (r : List α) :
    ∀ init : α, x ∈ r → x ≤ r.foldl max init := by
  induction r with
  | nil => intro init hx; cases hx
  | cons a tl ih =>
    intro init hx
    rcases List.mem_cons.mp hx with h | h
    · subst h
      exact le_trans (le_max_right init x) (le_foldl_max tl (max init x))
    · exact ih (max init a) h

theorem foldl_max_mem (r : List α) :
    ∀ init : α, r.foldl max init = init ∨ r.foldl max init ∈ r := by
  induction r with
  | nil => intro init; left; rfl
  | cons a tl ih =>
    intro init
    rcases ih (max init a) with h | h
    · rcases max_choice init a with hm | hm
      · left; rw [List.foldl_cons, h, hm]
      · right; rw [List.foldl_cons, h, hm]; exact List.mem_cons_self a tl
    · right; exact List.mem_cons_of_mem a h

theorem le_npMax {x : α} {r : List α} (hx : x ∈ r) : x ≤ npMax r :=
  mem_le_foldl_max r (r.headD 0) hx

theorem npMax_mem {r : List α} (hr : r ≠ []) : npMax r ∈ r := by
  rcases foldl_max_mem r (r.headD 0) with h | h
  · rw [npMax, h]
    cases r with
    | nil => exact absurd rfl hr
    | cons a tl => exact List.mem_cons_self a tl
  · exact h

theorem foldl_min_le_init (r : List α) (init : α) : r.foldl min init ≤ init := by
  induction r generalizing init with
  | nil => exact le_refl init
  | cons a tl ih => exact le_trans (ih (min init a)) (min_le_left init a)

theorem npMin_le {x : α} {r : List α} (hx : x ∈ r) : npMin r ≤ x := by
  rw [npMin]
  generalize (r.headD 0) = init
  induction r generalizing init with
  | nil => cases hx
  | cons a tl ih =>
    rcases List.mem_cons.mp hx with h | h
    · subst h
      exact le_trans (foldl_min_le_init tl (min init x)) (min_le_right init x)
    · exact ih h (min init a)

theorem foldl_min_map_add (tl : List α) :
    ∀ a c : α, (tl.map (fun x => x + c)).foldl min (a + c) = tl.foldl min a + c := by
  induction tl with
  | nil => intro a c; rfl
  | cons b tl ih =>
    intro a c
    simp only [List.map_cons, List.foldl_cons]
    rw [min_add_add_right]
    exact ih (min a b) c

theorem npMin_map_add (r : List α) (c : α) (hr : r ≠ []) :
    npMin (r.map (fun x => x + c)) = npMin r + c := by
  cases r with
  | nil => exact absurd rfl hr
  | cons a tl =>
    simp only [npMin, List.map_cons, List.headD_cons, List.foldl_cons, min_self]
    exact foldl_min_map_add tl a c

theorem shiftRow_map_add (r : List α) (c : α) :
    shiftRow (r.map (fun x => x + c)) = shiftRow r := by
  cases r with
  | nil => rfl
  | cons a tl =>
    unfold shiftRow
    rw [npMin_map_add (a :: tl) c (by simp), List.map_map]
    congr 1
    funext x
    simp only [Function.comp_apply]
    ring

/-! ### Helper lemmas about the row normaliser and the stacked planes -/

theorem normRow_mem_unit {r : List α} (h0 : ∀ x ∈ r, 0 ≤ x) :
    ∀ y ∈ normRow r, 0 ≤ y ∧ y ≤ 1 := by
  intro y hy
  obtain ⟨x, hx, rfl⟩ := List.mem_map.mp hy
  by_cases hm : npMax r = 0
  · have hx0 : x = 0 := le_antisymm (hm ▸ le_npMax hx) (h0 x hx)
    rw [if_pos hm, hx0]
    norm_num
  · have hne : r ≠ [] := by rintro rfl; cases hx
    have hpos : 0 < npMax r := lt_of_le_of_ne (h0 _ (npMax_mem hne)) (Ne.symm hm)
    rw [if_neg hm]
    exact ⟨div_nonneg (h0 x hx) (le_of_lt hpos),
      div_le_one_of_le₀ (le_npMax hx) (le_of_lt hpos)⟩

theorem getD_map_of_lt {β γ : Type} (f : β → γ) (l : List β) (dβ : β) (dγ : γ) :
    ∀ i : ℕ, i < l.length → (l.map f).getD i dγ = f (l.getD i dβ) := by
  induction l with
  | nil => intro i hi; simp at hi
  | cons a tl ih =>
    intro i hi
    cases i with
    | zero => rfl
    | succ n =>
      simp only [List.map_cons, List.getD_cons_succ]
      exact ih n (by simpa using hi)

theorem stack3_mem {b : Batch α} : ∀ row ∈ stack3 b, ∀ p ∈ row, ∃ x, p = [x, x, x] := by
  intro row hrow p hp
  obtain ⟨r, hr, rfl⟩ := List.mem_map.mp hrow
  obtain ⟨x, hx, rfl⟩ := List.mem_map.mp hp
  exact ⟨x, rfl⟩

theorem qToR3_stack3_mem (b : Batch ℚ) :
    ∀ row ∈ qToR3 (stack3 b), ∀ p ∈ row, ∃ x : ℝ, p = [x, x, x] := by
  intro row hrow p hp
  obtain ⟨row₀, hrow₀, rfl⟩ := List.mem_map.mp hrow
  obtain ⟨p₀, hp₀, rfl⟩ := List.mem_map.mp hp
  obtain ⟨x, rfl⟩ := stack3_mem row₀ hrow₀ p₀ hp₀
  exact ⟨(x : ℝ), rfl⟩

theorem truncQ_eq_floor (v : ℚ) (hv : 0 ≤ v) : truncQ v = ⌊v⌋ := by
  rw [truncQ, Rat.floor_def]
  exact Int.tdiv_eq_ediv (Rat.num_nonneg.mpr hv) (Int.natCast_nonneg v.den)

/-! ### Claims -/

/-- C1 (code bug): the chunk-alignment padding of the frequency transform
is claimed to produce the smallest multiple of `chunk_size` that is at
least the current width. The code uses the unconditional
`chunk_size - T % chunk_size` (transform.py line 151), so on a width
that is already a multiple of `chunk_size` (here width 2, chunk size 2)
it pads by a full chunk and widens the array to 4 columns instead of
leaving it at 2. -/
theorem C1_padding_code_bug :
    pad_length 2 2 = 2 ∧ width (padToChunk 2 [[(1 : ℚ), 2]]) = 4 :=
  ⟨rfl, rfl⟩

/-- C4: on a non-negative 2D input the row normaliser produces values in
the unit interval, any positionally maximal element of a row with a
nonzero maximum is mapped to exactly 1, and a row whose maximum is 0 is
left unchanged (all of its entries being 0), with the substituted
maximum of 1 avoiding a division by zero. -/
theorem C4_row_normalizer (b : Batch ℚ) (hb : ∀ r ∈ b, ∀ x ∈ r, 0 ≤ x) :
    (∀ r ∈ normalizeRows b, ∀ y ∈ r, 0 ≤ y ∧ y ≤ 1) ∧
    (∀ r ∈ b, ∀ i : ℕ, i < r.length → npMax r ≠ 0 → r.getD i 0 = npMax r →
      (normRow r).getD i 0 = 1) ∧
    (∀ r ∈ b, npMax r = 0 → normRow r = r ∧ ∀ y ∈ r, y = 0) := by
  refine ⟨?_, ?_, ?_⟩
  · intro r hr
    obtain ⟨r₀, hr₀, rfl⟩ := List.mem_map.mp hr
    exact normRow_mem_unit (hb r₀ hr₀)
  · intro r hr i hi hm he
    rw [normRow, getD_map_of_lt _ r 0 0 i hi, he, if_neg hm]
    exact div_self hm
  · intro r hr hm
    have hz : ∀ y ∈ r, y = 0 := fun y hy =>
      le_antisymm (hm ▸ le_npMax hy) (hb r hr y hy)
    refine ⟨?_, hz⟩
    simp [normRow, hm]

/-- Witness for C4 at a concrete non-negative input with one nonzero row
and one all-zero row. -/
theorem C4_row_normalizer_witness :
    (∀ r ∈ normalizeRows [[(0 : ℚ), 1, 2], [0, 0]], ∀ y ∈ r, 0 ≤ y ∧ y ≤ 1) ∧
    (∀ r ∈ ([[(0 : ℚ), 1, 2], [0, 0]] : Batch ℚ), ∀ i : ℕ, i < r.length →
      npMax r ≠ 0 → r.getD i 0 = npMax r → (normRow r).getD i 0 = 1) ∧
    (∀ r ∈ ([[(0 : ℚ), 1, 2], [0, 0]] : Batch ℚ), npMax r = 0 →
      normRow r = r ∧ ∀ y ∈ r, y = 0) :=
  C4_row_normalizer [[(0 : ℚ), 1, 2], [0, 0]] (by norm_num)

/-- C5 counterexample: the pixel value is not the nearest integer. At
the normalised value 1/2 the code writes `trunc(127.5) = 127`, while
rounding gives 128. -/
theorem C5_pixel_round_counterexample :
    npUint8 (1 / 2) ≠ round ((1 / 2 : ℚ) * 255) := by
  have h2 : ((1 : ℚ) / 2) * 255 = 255 / 2 := by norm_num
  have hf : ⌊(255 : ℚ) / 2⌋ = 127 :=
    Int.floor_eq_iff.mpr (by constructor <;> norm_num)
  have h1 : npUint8 (1 / 2) = 127 := by
    rw [npUint8, h2, truncQ_eq_floor _ (by norm_num), hf]
    decide
  have h3 : round ((1 / 2 : ℚ) * 255) = 128 := by
    rw [h2, round_eq, show (255 : ℚ) / 2 + 1 / 2 = 128 by norm_num]
    exact Int.floor_eq_iff.mpr (by constructor <;> norm_num)
  rw [h1, h3]
  decide

/-- C5 amended: for a normalised value `v` in the unit interval the
8-bit pixel value written by `(data * 255).astype(np.uint8)` is the
truncation `⌊v * 255⌋` of the scaled value, not its rounding. -/
theorem C5_pixel_truncates (v : ℚ) (h0 : 0 ≤ v) (h1 : v ≤ 1) :
    npUint8 v = ⌊v * 255⌋ := by
  have hw : (0 : ℚ) ≤ v * 255 := by positivity
  have hf0 : (0 : ℤ) ≤ ⌊v * 255⌋ := Int.floor_nonneg.mpr hw
  have hle : v * 255 ≤ 255 := by nlinarith
  have hf1 : ⌊v * 255⌋ < 256 := by
    have h255 : ⌊v * 255⌋ ≤ ⌊(255 : ℚ)⌋ := Int.floor_le_floor hle
    have : ⌊(255 : ℚ)⌋ = 255 := by norm_num
    omega
  rw [npUint8, truncQ_eq_floor _ hw, Int.emod_eq_of_lt hf0 hf1]

/-- Witness for C5 amended at the value 1/2. -/
theorem C5_pixel_truncates_witness :
    (0 : ℚ) ≤ 1 / 2 ∧ (1 / 2 : ℚ) ≤ 1 ∧ npUint8 (1 / 2) = ⌊(1 / 2 : ℚ) * 255⌋ :=
  ⟨by norm_num, by norm_num, C5_pixel_truncates (1 / 2) (by norm_num) (by norm_num)⟩

/-- C6: in the identity transform every entry left in a row after the
in-place subtraction of the row minimum is non-negative, and the final
output is unchanged when each row is translated by a constant (the
subtracted minimum absorbs the constant entirely). -/
theorem C6_identity_shift (b b' : Batch ℚ)
    (h : List.Forall₂ (fun r r' => ∃ c : ℚ, r' = r.map (fun x => x + c)) b b') :
    (∀ r ∈ b.map shiftRow, ∀ x ∈ r, 0 ≤ x) ∧ nothing b' = nothing b := by
  constructor
  · intro r hr x hx
    obtain ⟨r₀, hr₀, rfl⟩ := List.mem_map.mp hr
    obtain ⟨y, hy, rfl⟩ := List.mem_map.mp hx
    exact sub_nonneg.mpr (npMin_le hy)
  · have hmap : b'.map shiftRow = b.map shiftRow := by
      induction h with
      | nil => rfl
      | cons hab htl ih =>
        obtain ⟨c, rfl⟩ := hab
        rw [List.map_cons, List.map_cons, shiftRow_map_add, ih]
    simp only [nothing, nothingRun, hmap]

/-- Witness for C6: the batch with the single row [-1, 2] translated by
the constant 2 into [1, 4]. -/
theorem C6_identity_shift_witness :
    (∀ r ∈ ([[(-1 : ℚ), 2]] : Batch ℚ).map shiftRow, ∀ x ∈ r, 0 ≤ x) ∧
    nothing [[(1 : ℚ), 4]] = nothing [[(-1 : ℚ), 2]] :=
  C6_identity_shift [[(-1 : ℚ), 2]] [[(1 : ℚ), 4]]
    (List.Forall₂.cons ⟨2, by norm_num⟩ List.Forall₂.nil)

/-- C8 counterexample: the `nothing` transform mutates its argument in
place. After `extract` with method `nothing` on the batch [[1, 2]] the
caller's array holds the min-shifted rows [[0, 1]], not the original
values. -/
theorem C8_mutation_counterexample :
    (extractRun (fun _ => []) [[(1 : ℚ), 2]] "nothing" 64 128).2 ≠ [[(1 : ℚ), 2]] := by
  have h1 : shiftRow [(1 : ℚ), 2] = [0, 1] := by
    norm_num [shiftRow, npMin, min_def]
  simp [extractRun, nothingRun, h1]

/-- C8 amended: the `fft` and `spectrogram` branches of `extract` leave
the caller's array unchanged, but the `nothing` branch overwrites it
with the rows shifted by their minima (transform.py line 191 subtracts
in place). -/
theorem C8_mutation_amended (sxxOf : List ℚ → List (List ℝ)) (ts : Batch ℚ)
    (chunk_size fft_size : ℕ) :
    (extractRun sxxOf ts "fft" chunk_size fft_size).2 = ts ∧
    (extractRun sxxOf ts "spectrogram" chunk_size fft_size).2 = ts ∧
    (extractRun sxxOf ts "nothing" chunk_size fft_size).2 = ts.map shiftRow := by
  refine ⟨?_, ?_, ?_⟩ <;> simp [extractRun, nothingRun]

/-- C3 counterexample: the method names claimed by the specification,
`frequency` and `identity`, are not recognised by `extract`; both raise
the unsupported-method error. -/
theorem C3_method_names_counterexample :
    extract (fun _ => []) [[(1 : ℚ)]] "frequency" 64 128 =
        Except.error "Invalid feature extraction method" ∧
    extract (fun _ => []) [[(1 : ℚ)]] "identity" 64 128 =
        Except.error "Invalid feature extraction method" :=
  ⟨rfl, rfl⟩

/-- C3 amended: the recognised method names are exactly `fft`,
`spectrogram` and `nothing`; for each of them `extract` does not raise
the unsupported-method error and dispatches to the corresponding
implementation. -/
theorem C3_method_names_amended (sxxOf : List ℚ → List (List ℝ)) (ts : Batch ℚ)
    (chunk_size fft_size : ℕ) (method : String)
    (hm : method = "fft" ∨ method = "spectrogram" ∨ method = "nothing") :
    extract sxxOf ts method chunk_size fft_size ≠
        Except.error "Invalid feature extraction method" ∧
    extract sxxOf ts method chunk_size fft_size = Except.ok
      (if method = "fft" then simple_fourier ts chunk_size fft_size
       else if method = "spectrogram" then spectrogram sxxOf ts
       else qToR3 (nothing ts)) := by
  rcases hm with rfl | rfl | rfl <;> simp [extract, extractRun, nothing]

/-- Witness for C3 amended at method `spectrogram`. -/
theorem C3_method_names_amended_witness :
    extract (fun _ => []) [[(1 : ℚ)]] "spectrogram" 64 128 ≠
        Except.error "Invalid feature extraction method" ∧
    extract (fun _ => []) [[(1 : ℚ)]] "spectrogram" 64 128 = Except.ok
      (if ("spectrogram" : String) = "fft" then simple_fourier [[(1 : ℚ)]] 64 128
       else if ("spectrogram" : String) = "spectrogram" then
         spectrogram (fun _ => []) [[(1 : ℚ)]]
       else qToR3 (nothing [[(1 : ℚ)]])) :=
  C3_method_names_amended (fun _ => []) [[(1 : ℚ)]] 64 128 "spectrogram"
    (Or.inr (Or.inl rfl))

/-- C9: any method string other than the three recognised ones makes
`extract` raise the invalid-method error, with no fallback and no
output. -/
theorem C9_unknown_method_error (sxxOf : List ℚ → List (List ℝ)) (ts : Batch ℚ)
    (chunk_size fft_size : ℕ) (method : String)
    (h1 : method ≠ "fft") (h2 : method ≠ "spectrogram") (h3 : method ≠ "nothing") :
    extract sxxOf ts method chunk_size fft_size =
      Except.error "Invalid feature extraction method" := by
  simp [extract, extractRun, h1, h2, h3]

/-- Witness for C9 at the method string `bogus`. -/
theorem C9_unknown_method_error_witness :
    extract (fun _ => []) [[(1 : ℚ)]] "bogus" 64 128 =
      Except.error "Invalid feature extraction method" :=
  C9_unknown_method_error (fun _ => []) [[(1 : ℚ)]] 64 128 "bogus"
    (by decide) (by decide) (by decide)

/-- C7: whenever `extract` succeeds, every pixel of the produced feature
image is a triple of three identical values: each transform ends by
stacking the same 2D array into the three channel planes. -/
theorem C7_planes_identical (sxxOf : List ℚ → List (List ℝ)) (ts : Batch ℚ)
    (chunk_size fft_size : ℕ) (method : String) (out : List (List (List ℝ)))
    (h : extract sxxOf ts method chunk_size fft_size = Except.ok out) :
    ∀ row ∈ out, ∀ p ∈ row, p.getD 0 0 = p.getD 1 0 ∧ p.getD 0 0 = p.getD 2 0 := by
  suffices hs : ∀ row ∈ out, ∀ p ∈ row, ∃ x : ℝ, p = [x, x, x] by
    intro row hrow p hp
    obtain ⟨x, rfl⟩ := hs row hrow p hp
    exact ⟨rfl, rfl⟩
  simp only [extract, extractRun] at h
  split_ifs at h with h1 h2 h3
  · obtain rfl : simple_fourier ts chunk_size fft_size = out := Except.ok.inj h
    exact stack3_mem
  · obtain rfl : spectrogram sxxOf ts = out := Except.ok.inj h
    exact stack3_mem
  · obtain rfl : qToR3 (nothingRun ts).1 = out := Except.ok.inj h
    exact qToR3_stack3_mem (normalizeRows (ts.map shiftRow))

/-- Witness for C7 on the spectrogram branch with a one-element
magnitude array, instantiated at the single produced pixel. -/
theorem C7_planes_identical_witness :
    ([(0 : ℝ), 0, 0] : List ℝ).getD 0 0 = ([(0 : ℝ), 0, 0] : List ℝ).getD 1 0 ∧
    ([(0 : ℝ), 0, 0] : List ℝ).getD 0 0 = ([(0 : ℝ), 0, 0] : List ℝ).getD 2 0 :=
  C7_planes_identical (fun _ => [[(0 : ℝ)]]) [[(1 : ℚ)]] 64 128 "spectrogram"
    [[[(0 : ℝ), 0, 0]]] rfl [[(0 : ℝ), 0, 0]] (by simp) [(0 : ℝ), 0, 0] (by simp)

/-! ### Shape lemmas for the frequency transform -/

theorem rfftMag_length (F : ℕ) (x : List ℚ) : (rfftMag F x).length = F / 2 + 1 := by
  simp [rfftMag]

theorem length_reshapeRows (m c : ℕ) (l : List α) : (reshapeRows m c l).length = m := by
  simp [reshapeRows]

theorem reshapeRows_row_length {m c : ℕ} {l : List α} (h : m * c ≤ l.length) :
    ∀ r ∈ reshapeRows m c l, r.length = c := by
  intro r hr
  simp only [reshapeRows, List.mem_map, List.mem_range] at hr
  obtain ⟨i, hi, rfl⟩ := hr
  have h1 : i * c + c ≤ m * c := by
    have h2 : (i + 1) * c ≤ m * c := Nat.mul_le_mul_right c hi
    simpa [Nat.succ_mul] using h2
  have h3 : i * c + c ≤ l.length := le_trans h1 h
  simp only [List.length_take, List.length_drop]
  generalize hk : i * c = k at h3 ⊢
  omega

theorem flatten_length_const {L : Batch α} {c : ℕ} (h : ∀ r ∈ L, r.length = c) :
    L.flatten.length = L.length * c := by
  induction L with
  | nil => simp
  | cons a tl ih =>
    have ha := h a (List.mem_cons_self a tl)
    have htl := ih fun r hr => h r (List.mem_cons_of_mem a hr)
    simp only [List.flatten_cons, List.length_append, List.length_cons, htl, ha]
    ring

theorem stack3_length (b : Batch α) : (stack3 b).length = b.length := by
  simp [stack3]

theorem stack3_row_length {b : Batch α} {c : ℕ} (h : ∀ r ∈ b, r.length = c) :
    ∀ row ∈ stack3 b, row.length = c := by
  intro row hrow
  obtain ⟨r, hr, rfl⟩ := List.mem_map.mp hrow
  rw [List.length_map]
  exact h r hr

theorem stack3_plane_length {b : Batch α} :
    ∀ row ∈ stack3 b, ∀ p ∈ row, p.length = 3 := by
  intro row hrow p hp
  obtain ⟨x, rfl⟩ := stack3_mem row hrow p hp
  rfl

/-- The full output shape of `simple_fourier` on a rectangular batch of
`N = ts.length` rows and `T` columns with a positive chunk size: the
first axis is the total chunk count `N * (T / C + 1)` (the unconditional
padding always adds a partial-or-full extra chunk, so the per-channel
chunk count is `T / C + 1`), the second axis is the rfft bin count
`F / 2 + 1`, and the innermost axis is the 3 replicated planes. -/
theorem fourier_output_shape (ts : Batch ℚ) (C F T : ℕ) (hC : 1 ≤ C)
    (hN : 1 ≤ ts.length) (hT : ∀ r ∈ ts, r.length = T) :
    (simple_fourier ts C F).length = ts.length * (T / C + 1) ∧
    (∀ row ∈ simple_fourier ts C F, row.length = F / 2 + 1) ∧
    (∀ row ∈ simple_fourier ts C F, ∀ p ∈ row, p.length = 3) := by
  have hwidth : width ts = T := by
    cases ts with
    | nil => simp at hN
    | cons r tl => exact hT r (List.mem_cons_self r tl)
  have hP : T + pad_length C T = C * (T / C + 1) := by
    have hdm := Nat.div_add_mod T C
    have hmod : T % C < C := Nat.mod_lt T hC
    rw [pad_length, Nat.mul_succ]
    generalize C * (T / C) = q at hdm ⊢
    omega
  simp only [simple_fourier]
  set P := padToChunk C ts with hPdef
  set flat1 := P.flatten with hflat1def
  set chunked := reshapeRows (flat1.length / C) C flat1 with hchunkeddef
  set mags := chunked.map (rfftMag F) with hmagsdef
  set flat2 := mags.flatten with hflat2def
  set byRow := reshapeRows ts.length (flat2.length / ts.length) flat2 with hbyRowdef
  set normed := normalizeRows byRow with hnormeddef
  set K := T / C + 1 with hKdef
  set B := F / 2 + 1 with hBdef
  have hpad_rows : ∀ r ∈ P, r.length = C * K := by
    intro r hr
    simp only [hPdef, padToChunk, List.mem_map] at hr
    obtain ⟨r₀, hr₀, rfl⟩ := hr
    rw [List.length_append, List.length_replicate, hT r₀ hr₀, hwidth]
    exact hP
  have hplen : P.length = ts.length := by simp [hPdef, padToChunk]
  have hflat1_len : flat1.length = ts.length * (C * K) := by
    rw [hflat1def, flatten_length_const hpad_rows, hplen]
  have hM : flat1.length / C = ts.length * K := by
    rw [hflat1_len, show ts.length * (C * K) = C * (ts.length * K) by ring]
    exact Nat.mul_div_cancel_left _ hC
  have hchunked_rows : ∀ r ∈ chunked, r.length = C := by
    apply reshapeRows_row_length
    rw [hM, hflat1_len]
    exact le_of_eq (by ring)
  have hmags_len : mags.length = ts.length * K := by
    rw [hmagsdef, List.length_map, hchunkeddef, length_reshapeRows, hM]
  have hmags_rows : ∀ r ∈ mags, r.length = B := by
    intro r hr
    obtain ⟨r₀, hr₀, rfl⟩ := List.mem_map.mp hr
    exact rfftMag_length F r₀
  have hflat2_len : flat2.length = ts.length * K * B := by
    rw [hflat2def, flatten_length_const hmags_rows, hmags_len]
  have hcols : flat2.length / ts.length = K * B := by
    rw [hflat2_len, show ts.length * K * B = ts.length * (K * B) by ring]
    exact Nat.mul_div_cancel_left _ hN
  have hbyRow_rows : ∀ r ∈ byRow, r.length = K * B := by
    rw [hbyRowdef]
    intro r hr
    have := reshapeRows_row_length (m := ts.length) (c := flat2.length / ts.length)
      (l := flat2) (by rw [Nat.mul_comm]; exact Nat.div_mul_le_self _ _) r hr
    rw [this, hcols]
  have hnormed_len : normed.length = ts.length := by
    rw [hnormeddef, normalizeRows, List.length_map, hbyRowdef, length_reshapeRows]
  have hnormed_rows : ∀ r ∈ normed, r.length = K * B := by
    intro r hr
    obtain ⟨r₀, hr₀, rfl⟩ := List.mem_map.mp hr
    rw [normRow, List.length_map]
    exact hbyRow_rows r₀ hr₀
  have hflat3_len : normed.flatten.length = ts.length * (K * B) := by
    rw [flatten_length_const hnormed_rows, hnormed_len]
  refine ⟨?_, ?_, ?_⟩
  · rw [stack3_length, length_reshapeRows]
    exact hmags_len
  · apply stack3_row_length
    apply reshapeRows_row_length
    rw [hmags_len, hflat3_len]
    exact le_of_eq (by ring)
  · exact stack3_plane_length

/-- C2 counterexample: on the batch [[1, 2]] with chunk size 2 and fft
size 4 the claimed shape is (N, ceil(T/C) * (F/2+1), 3) = (1, 3, 3), but
the first axis of the actual output does not have length N = 1 (it has
length 2: the chunk axis stays flattened and the padding adds an extra
chunk). -/
theorem C2_output_shape_counterexample :
    (simple_fourier [[(1 : ℚ), 2]] 2 4).length ≠ 1 := by
  have h := fourier_output_shape [[(1 : ℚ), 2]] 2 4 2
    (by norm_num) (by norm_num) (by simp)
  rw [h.1]
  norm_num

/-- C2 amended: for a rectangular batch of `N ≥ 1` channels and `T`
timesteps and a positive chunk size `C`, the output of the frequency
transform has shape `(N * (T / C + 1), F / 2 + 1, 3)`: the first axis is
the total chunk count (per-channel chunk count `T / C + 1` because of
the unconditional padding, times `N` channels, left flattened), the
second the rfft bin count `F / 2 + 1`, the third the 3 planes. -/
theorem C2_output_shape_amended (ts : Batch ℚ) (C F T : ℕ) (hC : 1 ≤ C)
    (hN : 1 ≤ ts.length) (hT : ∀ r ∈ ts, r.length = T) :
    (simple_fourier ts C F).length = ts.length * (T / C + 1) ∧
    (∀ row ∈ simple_fourier ts C F, row.length = F / 2 + 1) ∧
    (∀ row ∈ simple_fourier ts C F, ∀ p ∈ row, p.length = 3) :=
  fourier_output_shape ts C F T hC hN hT

/-- Witness for C2 amended on the batch [[1, 2]] with chunk size 2 and
fft size 4: the output shape is (2, 3, 3). -/
theorem C2_output_shape_amended_witness :
    (simple_fourier [[(1 : ℚ), 2]] 2 4).length =
      ([[(1 : ℚ), 2]] : Batch ℚ).length * (2 / 2 + 1) ∧
    (∀ row ∈ simple_fourier [[(1 : ℚ), 2]] 2 4, row.length = 4 / 2 + 1) ∧
    (∀ row ∈ simple_fourier [[(1 : ℚ), 2]] 2 4, ∀ p ∈ row, p.length = 3) :=
  C2_output_shape_amended [[(1 : ℚ), 2]] 2 4 2 (by norm_num) (by norm_num) (by simp)

/-- C10 (code bug): extending a too-short filter list. With the parsed
list [4] and two blocks the code evaluates `num_filters.extend(4 * 1)`,
which raises a TypeError instead of extending the list to [4, 4]. -/
theorem C10_extend_filters_code_bug :
    extendFilters [4] 2 = Except.error "TypeError: int object is not iterable" :=
  rfl

end TimeChange
